import Mathlib

/-!
Verification of the incremental push-based parser-combinator core
(`src/parser/combinators.rs`).

The embedding models input chunks (`&str`) as lists of elements
(`List Char`), sinks as explicit emission lists returned by each call, and
each stateful parser as an explicit state type together with pure
`push`/`done` functions returning the new state, the emissions made during
the call, and the result.
-/

namespace Combinators

/-- An input chunk (`&str` viewed as its element sequence). -/
abbrev Chunk := List Char

/-- The result of one `push` call (`MatchResult<T>` with `T` the chunk type). -/
inductive MatchResult where
  | Undecided
  | Committed
  | Matched (rest : Chunk)
  | Failed (backtrack : Bool)
deriving DecidableEq

/-- The classification of a result: its constructor, with the backtracking
flag of `Failed` but without the `Matched` remainder payload. -/
inductive ResultClass where
  | Undecided
  | Committed
  | Matched
  | Failed (backtrack : Bool)
deriving DecidableEq

/-- Forget the `Matched` payload of a result. -/
def MatchResult.classify : MatchResult → ResultClass
  | .Undecided => .Undecided
  | .Committed => .Committed
  | .Matched _ => .Matched
  | .Failed b => .Failed b

/-- A parser implementation (`impl Parser<S,T>` with chunk type `Chunk` and
emission type `ε`): explicit state `σ`, with `push` and `done` returning the
new state, the values emitted to the downstream consumer during the call,
and the call's result. -/
structure PImpl (σ ε : Type) where
  push : σ → Chunk → σ × List ε × MatchResult
  done : σ → σ × List ε × Bool

-- ----------- Always commit (CommittedParser) ---------------

/-- Rust `CommittedParser::push`: delegate to the inner parser and remap the
result (`Undecided`/`Committed` to `Committed`, `Failed(_)` to
`Failed(false)`, `Matched` unchanged). -/
def CommittedParser.push {σ ε : Type} (P : PImpl σ ε) (st : σ) (value : Chunk) :
    σ × List ε × MatchResult :=
  match P.push st value with
  | (st', out, .Undecided) => (st', out, .Committed)
  | (st', out, .Committed) => (st', out, .Committed)
  | (st', out, .Matched rest) => (st', out, .Matched rest)
  | (st', out, .Failed _) => (st', out, .Failed false)

/-- Rust `CommittedParser::done`: delegate to the inner parser unchanged. -/
def CommittedParser.done {σ ε : Type} (P : PImpl σ ε) (st : σ) : σ × List ε × Bool :=
  P.done st

/-- The commit wrapper as a parser implementation. -/
def committed {σ ε : Type} (P : PImpl σ ε) : PImpl σ ε :=
  ⟨CommittedParser.push P, CommittedParser.done P⟩

-- ----------- Sequencing (AndThenParser) ---------------

/-- The state of `AndThenParser<L,R>`: the left state, the right state
(the right parser is stored wrapped in `CommittedParser`), and the
`in_lhs` flag. -/
structure AndThenState (σl σr : Type) where
  lhs : σl
  rhs : σr
  in_lhs : Bool
deriving DecidableEq

/-- Rust `AndThenParser::push`: while `in_lhs`, delegate to the left parser;
on its `Matched(rest)` switch to the right side and immediately push `rest`
into the commit-wrapped right parser; otherwise delegate to the right. -/
def AndThenParser.push {σl σr ε : Type} (L : PImpl σl ε) (R : PImpl σr ε)
    (st : AndThenState σl σr) (value : Chunk) :
    AndThenState σl σr × List ε × MatchResult :=
  if st.in_lhs then
    match L.push st.lhs value with
    | (l', out, .Undecided) => (⟨l', st.rhs, true⟩, out, .Undecided)
    | (l', out, .Committed) => (⟨l', st.rhs, true⟩, out, .Committed)
    | (l', out, .Matched rest) =>
        match (committed R).push st.rhs rest with
        | (r', out2, res) => (⟨l', r', false⟩, out ++ out2, res)
    | (l', out, .Failed b) => (⟨l', st.rhs, true⟩, out, .Failed b)
  else
    match (committed R).push st.rhs value with
    | (r', out2, res) => (⟨st.lhs, r', false⟩, out2, res)

/-- Rust `AndThenParser::done`: `self.lhs.done(downstream) && self.rhs.done(downstream)`.
The Rust `&&` operator short-circuits: the right call happens only when the
left call returned `true`. The `in_lhs` flag is not written. -/
def AndThenParser.done {σl σr ε : Type} (L : PImpl σl ε) (R : PImpl σr ε)
    (st : AndThenState σl σr) : AndThenState σl σr × List ε × Bool :=
  match L.done st.lhs with
  | (l', out1, bl) =>
    if bl then
      match (committed R).done st.rhs with
      | (r', out2, br) => (⟨l', r', st.in_lhs⟩, out1 ++ out2, br)
    else (⟨l', st.rhs, st.in_lhs⟩, out1, false)

/-- The sequencing combinator as a parser implementation. -/
def andThen {σl σr ε : Type} (L : PImpl σl ε) (R : PImpl σr ε) :
    PImpl (AndThenState σl σr) ε :=
  ⟨AndThenParser.push L R, AndThenParser.done L R⟩

-- ----------- Constant parsers (ConstantParser) -------------

/-- Rust `ConstantParserState`: at an offset into the target, or terminal. -/
inductive ConstantParserState where
  | AtOffset (index : Nat)
  | AtEnd (matched : Bool)
deriving DecidableEq

/-- Rust `ConstantParser`: the target string and the current state. -/
structure ConstantParser where
  constant : Chunk
  state : ConstantParserState
deriving DecidableEq

/-- Rust `ConstantParser::push`: the three guarded `AtOffset` arms followed by
the two terminal arms, in source order. -/
def ConstantParser.push (p : ConstantParser) (string : Chunk) :
    ConstantParser × List Unit × MatchResult :=
  match p.state with
  | .AtOffset index =>
      if (p.constant.drop index).isPrefixOf string then
        ({ p with state := .AtEnd true }, [()],
          .Matched (string.drop (p.constant.length - index)))
      else if string.isPrefixOf (p.constant.drop index) then
        ({ p with state := .AtOffset (index + string.length) }, [], .Undecided)
      else
        ({ p with state := .AtEnd false }, [], .Failed true)
  | .AtEnd true => (p, [], .Matched string)
  | .AtEnd false => (p, [], .Failed true)

/-- Rust `ConstantParser::done`: report whether the state is `AtEnd(true)` and
reset it to `AtOffset(0)`. -/
def ConstantParser.done (p : ConstantParser) : ConstantParser × List Unit × Bool :=
  ({ p with state := .AtOffset 0 }, [], decide (p.state = .AtEnd true))

/-- Rust `constant(string)`: a fresh literal matcher at offset 0. -/
def constant (string : Chunk) : ConstantParser :=
  ⟨string, .AtOffset 0⟩

/-- The literal matcher as a parser implementation. -/
def constantImpl : PImpl ConstantParser Unit :=
  ⟨ConstantParser.push, ConstantParser.done⟩

/-- The states of one literal matcher reachable within or across runs:
the fresh state, and everything `push` and `done` produce from them. -/
inductive ConstantParser.Reachable (c : Chunk) : ConstantParserState → Prop where
  | init : ConstantParser.Reachable c (.AtOffset 0)
  | push (st : ConstantParserState) (chunk : Chunk) :
      ConstantParser.Reachable c st →
      ConstantParser.Reachable c ((ConstantParser.mk c st).push chunk).1.state
  | done (st : ConstantParserState) :
      ConstantParser.Reachable c st →
      ConstantParser.Reachable c ((ConstantParser.mk c st).done).1.state

-- ----------- Buffering (BufferedParser) -------------

/-- Rust `BufferedParserState`: nothing accumulated yet, an owned buffer of
the consumed-so-far text, or a locally tracked terminal marker. -/
inductive BufferedParserState where
  | Beginning
  | Middle (buffer : Chunk)
  | EndMatch
  | EndFail (b : Bool)
deriving DecidableEq

/-- Rust `BufferedParser::push`. The Rust body `mem::replace`s the state with
`EndMatch` before matching on the old state; the `Beginning`, `Middle` and
`EndMatch` arms store (or keep) the intended state, but the `EndFail` arm
never writes the state back, so after a push in `EndFail(b)` the state is
left at `EndMatch`. The inner parser is driven with a discarding consumer,
so its own emissions are dropped. -/
def BufferedParser.push {σ : Type} (P : PImpl σ Unit)
    (st : σ × BufferedParserState) (string : Chunk) :
    (σ × BufferedParserState) × List Chunk × MatchResult :=
  match st.2 with
  | .Beginning =>
      match P.push st.1 string with
      | (ps, _, .Undecided) => ((ps, .Middle string), [], .Undecided)
      | (ps, _, .Committed) => ((ps, .Middle string), [], .Committed)
      | (ps, _, .Failed b) => ((ps, .EndFail b), [], .Failed b)
      | (ps, _, .Matched rest) =>
          ((ps, .EndMatch), [string.take (string.length - rest.length)],
            .Matched rest)
  | .Middle buffer =>
      match P.push st.1 string with
      | (ps, _, .Undecided) => ((ps, .Middle (buffer ++ string)), [], .Undecided)
      | (ps, _, .Committed) => ((ps, .Middle (buffer ++ string)), [], .Committed)
      | (ps, _, .Failed b) => ((ps, .EndFail b), [], .Failed b)
      | (ps, _, .Matched rest) =>
          ((ps, .EndMatch), [buffer ++ string.take (string.length - rest.length)],
            .Matched rest)
  | .EndMatch => (st, [], .Matched string)
  | .EndFail b => ((st.1, .EndMatch), [], .Failed b)

/-- Rust `BufferedParser::done`: call the inner `done` with a discarding
consumer; if it reports a match and the adapter is still in `Middle`, emit
the buffer; reset the adapter state to `Beginning` unconditionally. -/
def BufferedParser.done {σ : Type} (P : PImpl σ Unit)
    (st : σ × BufferedParserState) :
    (σ × BufferedParserState) × List Chunk × Bool :=
  match P.done st.1 with
  | (ps, _, result) =>
      ((ps, .Beginning),
        (if result then
          match st.2 with
          | .Middle buffer => [buffer]
          | _ => []
        else []),
        result)

/-- The buffering adapter as a parser implementation. -/
def buffered {σ : Type} (P : PImpl σ Unit) : PImpl (σ × BufferedParserState) Chunk :=
  ⟨BufferedParser.push P, BufferedParser.done P⟩

/-- Push a list of chunks in sequence, collecting cumulative emissions. -/
def pushMany {σ ε : Type} (P : PImpl σ ε) : σ → List Chunk → σ × List ε
  | st, [] => (st, [])
  | st, chunk :: rest =>
      match P.push st chunk with
      | (st', out, _) =>
          match pushMany P st' rest with
          | (st'', outs) => (st'', out ++ outs)

-- ----------- Auxiliary definitions for the claims -------------

/-- The outcome mapping the spec states for the commit wrapper, written from
the spec's words: Undecided and Committed map to Committed, Matched is kept
with its remainder, and any Failed becomes Failed(false). -/
def specCommitMap : MatchResult → MatchResult
  | .Undecided => .Committed
  | .Committed => .Committed
  | .Matched rest => .Matched rest
  | .Failed _ => .Failed false

/-- Whether a literal-matcher state is an offset state whose remaining
target is nonempty (terminal states count as having no pending remainder
and return true). -/
def hasRemaining (c : Chunk) : ConstantParserState → Bool
  | .AtOffset index => !(c.drop index).isEmpty
  | .AtEnd _ => true

/-- The sequencing of the literal matcher for "ab" with the literal matcher
for "cd", used to evaluate the combinators on the spec's scenario E. -/
def seqImplABCD : PImpl (AndThenState ConstantParser ConstantParser) Unit :=
  andThen constantImpl constantImpl

/-- The fresh state of the sequencing of literal "ab" and literal "cd". -/
def seqInitABCD : AndThenState ConstantParser ConstantParser :=
  ⟨constant ['a', 'b'], constant ['c', 'd'], true⟩

/-- The buffering adapter over the literal matcher for "ab". -/
def bufImplAB : PImpl (ConstantParser × BufferedParserState) Chunk :=
  buffered constantImpl

/-- The fresh state of the buffering adapter over literal "ab". -/
def bufInitAB : ConstantParser × BufferedParserState :=
  (constant ['a', 'b'], .Beginning)

-- ----------- Claim theorems -------------

/-- C6: the commit wrapper is a pure result transform on its inner matcher:
for every inner parser, state and chunk, its push returns the inner parser's
new state and emissions unchanged (it emits nothing of its own) with the
result remapped by the spec's outcome mapping (Undecided and Committed to
Committed, Matched(r) kept with the same remainder, Failed(b) to
Failed(false)), and its done is exactly the inner parser's done. -/
theorem committed_is_pure_transform {σ ε : Type} (P : PImpl σ ε) (st : σ)
    (value : Chunk) :
    (committed P).push st value =
      ((P.push st value).1, (P.push st value).2.1,
        specCommitMap (P.push st value).2.2) ∧
    (committed P).done st = P.done st := by
  refine ⟨?_, rfl⟩
  show CommittedParser.push P st value = _
  rcases h : P.push st value with ⟨st', out, r⟩
  cases r <;> simp [CommittedParser.push, h, specCommitMap]

/-- C2 is refuted by the code: the sequencing combinator's done is the Rust
short-circuiting `&&`, so when the left done reports false the right done is
never called. Concretely, with sequence(literal "ab", literal "cd"): push
"abcd" (left matches, right is activated and matches), done (resets both
children but not the active side), push "x" (goes straight to the right
child, which fails permanently, entering AtEnd(false)), done: the left done
reports false and short-circuits, leaving the right child at AtEnd(false),
whereas the right child's done would have reset it to AtOffset(0). -/
theorem andThen_done_short_circuit_eval :
    (seqImplABCD.done
        (seqImplABCD.push
          (seqImplABCD.done (seqImplABCD.push seqInitABCD ['a', 'b', 'c', 'd']).1).1
          ['x']).1).1.rhs.state = .AtEnd false ∧
    (ConstantParser.done (ConstantParser.mk ['c', 'd'] (.AtEnd false))).1.state
      = .AtOffset 0 := by
  decide

/-- C3 is refuted by the code: the sequencing combinator's done never resets
the `in_lhs` flag, so after a run in which the left side matched, the next
run starts on the right side instead of the left. Concretely, with
sequence(literal "ab", literal "cd"): push "abcd" returns Matched(""), done
returns true but leaves `in_lhs` false, and the next run's push "abcd"
returns Failed(false) where a freshly constructed instance returns
Matched(""). -/
theorem andThen_reset_incomplete_eval :
    (seqImplABCD.push seqInitABCD ['a', 'b', 'c', 'd']).2.2 = .Matched [] ∧
    (seqImplABCD.done (seqImplABCD.push seqInitABCD ['a', 'b', 'c', 'd']).1).2.2
      = true ∧
    (seqImplABCD.done (seqImplABCD.push seqInitABCD ['a', 'b', 'c', 'd']).1).1.in_lhs
      = false ∧
    (seqImplABCD.push
        (seqImplABCD.done (seqImplABCD.push seqInitABCD ['a', 'b', 'c', 'd']).1).1
        ['a', 'b', 'c', 'd']).2.2 = .Failed false := by
  decide

/-- C4 is refuted by the code for the buffering adapter: its push replaces
the state with EndMatch before inspecting it and the EndFail arm never
stores EndFail back, so Failed is not per-run terminal. Concretely, over
literal "ab": push "x" returns Failed(true) and enters EndFail(true); the
next push "y" returns Failed(true) but leaves the state at EndMatch; the
push after that returns Matched("z") instead of Failed(true). (The literal
matcher itself does keep both terminals per-run, as the first two conjuncts
of the evaluation below show.) -/
theorem buffered_failed_not_terminal_eval :
    (((constant ['a', 'b']).push ['x']).1.push ['y']).2.2 = .Failed true ∧
    ((((constant ['a', 'b']).push ['x']).1.push ['y']).1.push ['z']).2.2
      = .Failed true ∧
    (bufImplAB.push bufInitAB ['x']).2.2 = .Failed true ∧
    (bufImplAB.push bufInitAB ['x']).1.2 = .EndFail true ∧
    (bufImplAB.push (bufImplAB.push bufInitAB ['x']).1 ['y']).2.2 = .Failed true ∧
    (bufImplAB.push (bufImplAB.push bufInitAB ['x']).1 ['y']).1.2 = .EndMatch ∧
    (bufImplAB.push (bufImplAB.push (bufImplAB.push bufInitAB ['x']).1 ['y']).1
        ['z']).2.2 = .Matched ['z'] := by
  decide

/-- C5 as stated is false on the code: pushing the empty chunk into the
commit-wrapped literal matcher for "abc" in its fresh state returns
Committed, not Undecided. -/
theorem committed_push_empty_not_undecided :
    (CommittedParser.push constantImpl (constant ['a', 'b', 'c']) []).2.2
      = .Committed ∧
    (CommittedParser.push constantImpl (constant ['a', 'b', 'c']) []).2.2
      ≠ .Undecided := by
  decide

/-- C5 amended: for the literal matcher whose remaining target is nonempty
(or which is in a terminal state), pushing the empty chunk emits nothing and
leaves the state unchanged; it returns Undecided in an offset state and the
idempotent terminal reply (Matched(empty) or Failed(true)) in a terminal
state; the commit-wrapped matcher correspondingly returns Committed in an
offset state, Matched(empty) after a match and Failed(false) after a
failure. -/
theorem push_empty_amended (c : Chunk) (st : ConstantParserState)
    (h : hasRemaining c st = true) :
    ((ConstantParser.mk c st).push []).1 = ConstantParser.mk c st ∧
    ((ConstantParser.mk c st).push []).2.1 = [] ∧
    ((ConstantParser.mk c st).push []).2.2 =
      (match st with
        | .AtOffset _ => .Undecided
        | .AtEnd true => .Matched []
        | .AtEnd false => .Failed true) ∧
    (CommittedParser.push constantImpl (ConstantParser.mk c st) []).1
      = ConstantParser.mk c st ∧
    (CommittedParser.push constantImpl (ConstantParser.mk c st) []).2.1 = [] ∧
    (CommittedParser.push constantImpl (ConstantParser.mk c st) []).2.2 =
      (match st with
        | .AtOffset _ => .Committed
        | .AtEnd true => .Matched []
        | .AtEnd false => .Failed false) := by
  cases st with
  | AtOffset i =>
      have hne : c.drop i ≠ [] := by
        simpa [hasRemaining, List.isEmpty_iff] using h
      have h1 : (c.drop i).isPrefixOf ([] : Chunk) = false := by
        cases hd : c.drop i with
        | nil => exact absurd hd hne
        | cons x xs => simp [List.isPrefixOf]
      refine ⟨?_, ?_, ?_, ?_, ?_, ?_⟩ <;>
        simp [ConstantParser.push, CommittedParser.push, constantImpl, h1,
          List.isPrefixOf]
  | AtEnd b =>
      cases b <;>
        exact ⟨rfl, rfl, rfl, rfl, rfl, rfl⟩

/-- C5 amended, witness: the literal matcher for "abc" at offset 1. -/
theorem push_empty_amended_witness :
    hasRemaining ['a', 'b', 'c'] (.AtOffset 1) = true ∧
    (((ConstantParser.mk ['a', 'b', 'c'] (.AtOffset 1)).push []).1
        = ConstantParser.mk ['a', 'b', 'c'] (.AtOffset 1) ∧
      ((ConstantParser.mk ['a', 'b', 'c'] (.AtOffset 1)).push []).2.1 = [] ∧
      ((ConstantParser.mk ['a', 'b', 'c'] (.AtOffset 1)).push []).2.2 = .Undecided ∧
      (CommittedParser.push constantImpl
          (ConstantParser.mk ['a', 'b', 'c'] (.AtOffset 1)) []).1
        = ConstantParser.mk ['a', 'b', 'c'] (.AtOffset 1) ∧
      (CommittedParser.push constantImpl
          (ConstantParser.mk ['a', 'b', 'c'] (.AtOffset 1)) []).2.1 = [] ∧
      (CommittedParser.push constantImpl
          (ConstantParser.mk ['a', 'b', 'c'] (.AtOffset 1)) []).2.2 = .Committed) :=
  ⟨by decide, push_empty_amended ['a', 'b', 'c'] (.AtOffset 1) (by decide)⟩

/-- C7: in an offset state the literal matcher's push follows exactly the
claimed case analysis: if the remaining target is a prefix of the chunk it
emits the unit value once, enters terminal-matched and returns Matched of
the chunk with the remaining target length removed from the front; else if
the chunk is a prefix of the remaining target it advances the offset by the
chunk length and returns Undecided with no emission; otherwise it enters
terminal-failed and returns Failed(true). It never returns Committed or
Failed(false), and a zero-length target matches immediately against any
chunk, the empty one included. -/
theorem constant_push_offset_cases (c : Chunk) (i : Nat) (chunk : Chunk) :
    ((ConstantParser.mk c (.AtOffset i)).push chunk =
      if (c.drop i).isPrefixOf chunk then
        (⟨c, .AtEnd true⟩, [()], .Matched (chunk.drop (c.drop i).length))
      else if chunk.isPrefixOf (c.drop i) then
        (⟨c, .AtOffset (i + chunk.length)⟩, [], .Undecided)
      else
        (⟨c, .AtEnd false⟩, [], .Failed true)) ∧
    ((ConstantParser.mk c (.AtOffset i)).push chunk).2.2 ≠ .Committed ∧
    ((ConstantParser.mk c (.AtOffset i)).push chunk).2.2 ≠ .Failed false ∧
    (ConstantParser.mk [] (.AtOffset 0)).push chunk
      = (⟨[], .AtEnd true⟩, [()], .Matched chunk) := by
  refine ⟨?_, ?_, ?_, ?_⟩
  · simp only [ConstantParser.push, List.length_drop]
  · simp only [ConstantParser.push]
    split_ifs <;> simp
  · simp only [ConstantParser.push]
    split_ifs <;> simp
  · simp [ConstantParser.push, List.isPrefixOf]

/-- C9: for the literal matcher and for the buffering adapter over any inner
parser, a push call whose result is Undecided or Failed(true) makes no
emission to the sink. -/
theorem push_undecided_or_failed_true_sink_free {σ : Type} (P : PImpl σ Unit)
    (p : ConstantParser) (ps : σ) (bs : BufferedParserState) (chunk : Chunk) :
    ((p.push chunk).2.2 = .Undecided ∨ (p.push chunk).2.2 = .Failed true →
      (p.push chunk).2.1 = []) ∧
    ((BufferedParser.push P (ps, bs) chunk).2.2 = .Undecided ∨
        (BufferedParser.push P (ps, bs) chunk).2.2 = .Failed true →
      (BufferedParser.push P (ps, bs) chunk).2.1 = []) := by
  constructor
  · rcases p with ⟨c, st⟩
    cases st with
    | AtOffset i =>
        simp only [ConstantParser.push]
        split_ifs <;> simp
    | AtEnd b => cases b <;> simp [ConstantParser.push]
  · cases bs with
    | Beginning =>
        rcases hp : P.push ps chunk with ⟨ps', out, r⟩
        cases r <;> simp [BufferedParser.push, hp]
    | Middle buffer =>
        rcases hp : P.push ps chunk with ⟨ps', out, r⟩
        cases r <;> simp [BufferedParser.push, hp]
    | EndMatch => simp [BufferedParser.push]
    | EndFail b => simp [BufferedParser.push]

/-- C9, witness: literal "ab" pushed "a" returns Undecided with no emission,
and the buffering adapter over literal "ab" likewise. -/
theorem push_undecided_or_failed_true_sink_free_witness :
    (((constant ['a', 'b']).push ['a']).2.2 = .Undecided ∨
      ((constant ['a', 'b']).push ['a']).2.2 = .Failed true) ∧
    ((constant ['a', 'b']).push ['a']).2.1 = [] ∧
    ((BufferedParser.push constantImpl (constant ['a', 'b'], .Beginning)
        ['a']).2.2 = .Undecided ∨
      (BufferedParser.push constantImpl (constant ['a', 'b'], .Beginning)
        ['a']).2.2 = .Failed true) ∧
    (BufferedParser.push constantImpl (constant ['a', 'b'], .Beginning)
        ['a']).2.1 = [] :=
  ⟨Or.inl (by decide),
    (push_undecided_or_failed_true_sink_free constantImpl (constant ['a', 'b'])
        (constant ['a', 'b']) .Beginning ['a']).1 (Or.inl (by decide)),
    Or.inl (by decide),
    (push_undecided_or_failed_true_sink_free constantImpl (constant ['a', 'b'])
        (constant ['a', 'b']) .Beginning ['a']).2 (Or.inl (by decide))⟩

/-- C10: in every reachable literal-matcher state the offset is at most the
target length, so the slice of the target from the offset is in bounds; and
in the matched branch (where the remaining target is a prefix of the chunk)
the slice of the chunk at the remaining target length is in bounds. -/
theorem constant_offset_in_bounds (c : Chunk) (st : ConstantParserState)
    (h : ConstantParser.Reachable c st) :
    (∀ i, st = .AtOffset i → i ≤ c.length) ∧
    (∀ i chunk, st = .AtOffset i → (c.drop i).isPrefixOf chunk →
      c.length - i ≤ chunk.length) := by
  constructor
  · induction h with
    | init => intro i hi; cases hi; exact Nat.zero_le _
    | push st chunk hst ih =>
        cases st with
        | AtOffset j =>
            simp only [ConstantParser.push]
            split_ifs with h1 h2
            · intro i hi; cases hi
            · intro i hi
              cases hi
              have hj : j ≤ c.length := ih j rfl
              have hlen : chunk.length ≤ c.length - j := by
                have := ( List.isPrefixOf_iff_prefix.mp h2).length_le
                simpa using this
              omega
            · intro i hi; cases hi
        | AtEnd b =>
            cases b <;> · intro i hi; cases hi
    | done st hst ih =>
        intro i hi
        simp only [ConstantParser.done] at hi
        cases hi
        exact Nat.zero_le _
  · intro i chunk _ hp
    have := ( List.isPrefixOf_iff_prefix.mp hp).length_le
    simpa using this

/-- C10, witness: the reachable state at offset 1 of the literal matcher for
"ab", reached by pushing "a" into the fresh matcher. -/
theorem constant_offset_in_bounds_witness :
    ConstantParser.Reachable ['a', 'b'] (.AtOffset 1) ∧
    1 ≤ (['a', 'b'] : Chunk).length ∧
    (['a', 'b'] : Chunk).length - 1 ≤ (['b', 'c'] : Chunk).length := by
  have hr : ConstantParser.Reachable ['a', 'b'] (.AtOffset 1) :=
    ConstantParser.Reachable.push (.AtOffset 0) ['a']
      ConstantParser.Reachable.init
  exact ⟨hr,
    (constant_offset_in_bounds ['a', 'b'] (.AtOffset 1) hr).1 1 rfl,
    (constant_offset_in_bounds ['a', 'b'] (.AtOffset 1) hr).2 1 ['b', 'c'] rfl
      (by decide)⟩

/-- C1: congruence for the literal matcher. From any reachable state,
pushing chunk a and then chunk b gives the same final result classification
and the same cumulative emissions as a single push of the concatenation
a ++ b. -/
theorem constant_push_congruence (c : Chunk) (st : ConstantParserState)
    (_h : ConstantParser.Reachable c st) (a b : Chunk) :
    ((((ConstantParser.mk c st).push a).1.push b).2.2).classify
        = (((ConstantParser.mk c st).push (a ++ b)).2.2).classify ∧
    ((ConstantParser.mk c st).push a).2.1 ++
        (((ConstantParser.mk c st).push a).1.push b).2.1
      = ((ConstantParser.mk c st).push (a ++ b)).2.1 := by
  clear _h
  cases st with
  | AtEnd mb => cases mb <;> simp [ConstantParser.push, MatchResult.classify]
  | AtOffset i =>
    by_cases h1 : c.drop i <+: a
    · have hab : c.drop i <+: a ++ b := h1.trans ( List.prefix_append a b)
      simp [ConstantParser.push, h1, hab, MatchResult.classify]
    · by_cases h2 : a <+: c.drop i
      · have hsplit : c.drop i = a ++ c.drop (i + a.length) := by
          conv_lhs => rw [← List.take_append_drop a.length (c.drop i)]
          rw [← List.prefix_iff_eq_take.mp h2, List.drop_drop]
        have hc1 : (c.drop i <+: a ++ b) ↔ (c.drop (i + a.length) <+: b) := by
          rw [hsplit]
          exact List.prefix_append_right_inj a
        have hc2 : (a ++ b <+: c.drop i) ↔ (b <+: c.drop (i + a.length)) := by
          rw [hsplit]
          exact List.prefix_append_right_inj a
        have e1 : (ConstantParser.mk c (.AtOffset i)).push a
            = (⟨c, .AtOffset (i + a.length)⟩, [], .Undecided) := by
          simp [ConstantParser.push, h1, h2]
        rw [e1]
        by_cases h3 : c.drop (i + a.length) <+: b
        · simp [ConstantParser.push, h3, hc1.mpr h3, MatchResult.classify]
        · have n1 : ¬ (c.drop i <+: a ++ b) := fun hx => h3 (hc1.mp hx)
          by_cases h4 : b <+: c.drop (i + a.length)
          · simp [ConstantParser.push, h3, h4, n1, hc2.mpr h4,
              MatchResult.classify]
          · have n2 : ¬ (a ++ b <+: c.drop i) := fun hx => h4 (hc2.mp hx)
            simp [ConstantParser.push, h3, h4, n1, n2, MatchResult.classify]
      · have n1 : ¬ (c.drop i <+: a ++ b) := fun hp =>
          ( List.prefix_or_prefix_of_prefix ( List.prefix_append a b) hp).elim
            (fun hx => h2 hx) (fun hx => h1 hx)
        have n2 : ¬ (a ++ b <+: c.drop i) := fun hp =>
          h2 (( List.prefix_append a b).trans hp)
        simp [ConstantParser.push, h1, h2, n1, n2, MatchResult.classify]

/-- C1, witness: the literal matcher for "abc" in its fresh state, pushing
"ab" and then "cd" against the single push of "abcd". -/
theorem constant_push_congruence_witness :
    ConstantParser.Reachable ['a', 'b', 'c'] (.AtOffset 0) ∧
    (((((ConstantParser.mk ['a', 'b', 'c'] (.AtOffset 0)).push
            ['a', 'b']).1.push ['c', 'd']).2.2).classify
        = (((ConstantParser.mk ['a', 'b', 'c'] (.AtOffset 0)).push
            (['a', 'b'] ++ ['c', 'd'])).2.2).classify ∧
      ((ConstantParser.mk ['a', 'b', 'c'] (.AtOffset 0)).push ['a', 'b']).2.1 ++
          ((((ConstantParser.mk ['a', 'b', 'c'] (.AtOffset 0)).push
            ['a', 'b']).1).push ['c', 'd']).2.1
        = ((ConstantParser.mk ['a', 'b', 'c'] (.AtOffset 0)).push
            (['a', 'b'] ++ ['c', 'd'])).2.1) :=
  ⟨ConstantParser.Reachable.init,
    constant_push_congruence ['a', 'b', 'c'] (.AtOffset 0)
      ConstantParser.Reachable.init ['a', 'b'] ['c', 'd']⟩

/-- Invariant of a run of the buffering adapter over the literal matcher
for c, relating the state after a sequence of pushes from the fresh state
to the cumulative emissions so far: while undecided the buffer holds
exactly the consumed prefix of the target and nothing was emitted; after a
match exactly the target was emitted; after a failure nothing was emitted
and the inner matcher stays failed. -/
def BufRunInv (c : Chunk) (st : ConstantParser × BufferedParserState)
    (em : List Chunk) : Prop :=
  (st = (constant c, .Beginning) ∧ em = []) ∨
  (∃ i, i ≤ c.length ∧ st = (⟨c, .AtOffset i⟩, .Middle (c.take i)) ∧ em = []) ∨
  (st = (⟨c, .AtEnd true⟩, .EndMatch) ∧ em = [c]) ∨
  (st.1 = ⟨c, .AtEnd false⟩ ∧ em = [])

/-- One push preserves the run invariant of the buffering adapter. -/
theorem bufRunInv_push (c : Chunk) (st : ConstantParser × BufferedParserState)
    (em : List Chunk) (chunk : Chunk) (h : BufRunInv c st em) :
    BufRunInv c ((buffered constantImpl).push st chunk).1
      (em ++ ((buffered constantImpl).push st chunk).2.1) := by
  rcases h with ⟨hst, hem⟩ | ⟨i, hi, hst, hem⟩ | ⟨hst, hem⟩ | ⟨hst, hem⟩
  · subst hst; subst hem
    by_cases h1 : c <+: chunk
    · have hle : c.length ≤ chunk.length := h1.length_le
      have ei : ConstantParser.push (constant c) chunk
          = (⟨c, .AtEnd true⟩, [()], .Matched (chunk.drop c.length)) := by
        simp [ConstantParser.push, constant, h1]
      have e : (buffered constantImpl).push (constant c, .Beginning) chunk
          = ((⟨c, .AtEnd true⟩, .EndMatch),
              [chunk.take (chunk.length - (chunk.drop c.length).length)],
              .Matched (chunk.drop c.length)) := by
        simp [buffered, BufferedParser.push, constantImpl, ei]
      rw [e]
      refine Or.inr (Or.inr (Or.inl ⟨rfl, ?_⟩))
      simp [List.length_drop, Nat.sub_sub_self hle]
      exact ( List.prefix_iff_eq_take.mp h1).symm
    · by_cases h2 : chunk <+: c
      · have ei : ConstantParser.push (constant c) chunk
            = (⟨c, .AtOffset chunk.length⟩, [], .Undecided) := by
          simp [ConstantParser.push, constant, h1, h2]
        have e : (buffered constantImpl).push (constant c, .Beginning) chunk
            = ((⟨c, .AtOffset chunk.length⟩, .Middle chunk), [], .Undecided) := by
          simp [buffered, BufferedParser.push, constantImpl, ei]
        rw [e]
        refine Or.inr (Or.inl ⟨chunk.length, h2.length_le, ?_, by simp⟩)
        rw [← List.prefix_iff_eq_take.mp h2]
      · have ei : ConstantParser.push (constant c) chunk
            = (⟨c, .AtEnd false⟩, [], .Failed true) := by
          simp [ConstantParser.push, constant, h1, h2]
        have e : (buffered constantImpl).push (constant c, .Beginning) chunk
            = ((⟨c, .AtEnd false⟩, .EndFail true), [], .Failed true) := by
          simp [buffered, BufferedParser.push, constantImpl, ei]
        rw [e]
        exact Or.inr (Or.inr (Or.inr ⟨rfl, by simp⟩))
  · subst hst; subst hem
    by_cases h1 : c.drop i <+: chunk
    · have hle : c.length - i ≤ chunk.length := by
        simpa using h1.length_le
      have ei : ConstantParser.push ⟨c, .AtOffset i⟩ chunk
          = (⟨c, .AtEnd true⟩, [()], .Matched (chunk.drop (c.length - i))) := by
        simp [ConstantParser.push, h1]
      have e : (buffered constantImpl).push (⟨c, .AtOffset i⟩, .Middle (c.take i)) chunk
          = ((⟨c, .AtEnd true⟩, .EndMatch),
              [c.take i ++
                chunk.take (chunk.length - (chunk.drop (c.length - i)).length)],
              .Matched (chunk.drop (c.length - i))) := by
        simp [buffered, BufferedParser.push, constantImpl, ei]
      rw [e]
      refine Or.inr (Or.inr (Or.inl ⟨rfl, ?_⟩))
      have htake : chunk.take (c.length - i) = c.drop i := by
        have := List.prefix_iff_eq_take.mp h1
        rw [List.length_drop] at this
        exact this.symm
      simp [List.length_drop, Nat.sub_sub_self hle, htake]
    · by_cases h2 : chunk <+: c.drop i
      · have hlen : chunk.length ≤ c.length - i := by
          simpa using h2.length_le
        have ei : ConstantParser.push ⟨c, .AtOffset i⟩ chunk
            = (⟨c, .AtOffset (i + chunk.length)⟩, [], .Undecided) := by
          simp [ConstantParser.push, h1, h2]
        have e : (buffered constantImpl).push
              (⟨c, .AtOffset i⟩, .Middle (c.take i)) chunk
            = ((⟨c, .AtOffset (i + chunk.length)⟩,
                .Middle (c.take i ++ chunk)), [], .Undecided) := by
          simp [buffered, BufferedParser.push, constantImpl, ei]
        rw [e]
        refine Or.inr (Or.inl ⟨i + chunk.length, by omega, ?_, by simp⟩)
        have : c.take (i + chunk.length) = c.take i ++ chunk := by
          rw [List.take_add, ← List.prefix_iff_eq_take.mp h2]
        rw [this]
      · have ei : ConstantParser.push ⟨c, .AtOffset i⟩ chunk
            = (⟨c, .AtEnd false⟩, [], .Failed true) := by
          simp [ConstantParser.push, h1, h2]
        have e : (buffered constantImpl).push
              (⟨c, .AtOffset i⟩, .Middle (c.take i)) chunk
            = ((⟨c, .AtEnd false⟩, .EndFail true), [], .Failed true) := by
          simp [buffered, BufferedParser.push, constantImpl, ei]
        rw [e]
        exact Or.inr (Or.inr (Or.inr ⟨rfl, by simp⟩))
  · subst hst; subst hem
    have e : (buffered constantImpl).push (⟨c, .AtEnd true⟩, .EndMatch) chunk
        = ((⟨c, .AtEnd true⟩, .EndMatch), [], .Matched chunk) := by
      simp [buffered, BufferedParser.push]
    rw [e]
    exact Or.inr (Or.inr (Or.inl ⟨rfl, by simp⟩))
  · obtain ⟨p, bs⟩ := st
    simp only at hst
    subst hst; subst hem
    have ei : ConstantParser.push ⟨c, .AtEnd false⟩ chunk
        = (⟨c, .AtEnd false⟩, [], .Failed true) := by
      simp [ConstantParser.push]
    cases bs with
    | Beginning =>
        have e : (buffered constantImpl).push (⟨c, .AtEnd false⟩, .Beginning) chunk
            = ((⟨c, .AtEnd false⟩, .EndFail true), [], .Failed true) := by
          simp [buffered, BufferedParser.push, constantImpl, ei]
        rw [e]
        exact Or.inr (Or.inr (Or.inr ⟨rfl, by simp⟩))
    | Middle buffer =>
        have e : (buffered constantImpl).push
              (⟨c, .AtEnd false⟩, .Middle buffer) chunk
            = ((⟨c, .AtEnd false⟩, .EndFail true), [], .Failed true) := by
          simp [buffered, BufferedParser.push, constantImpl, ei]
        rw [e]
        exact Or.inr (Or.inr (Or.inr ⟨rfl, by simp⟩))
    | EndMatch =>
        have e : (buffered constantImpl).push
              (⟨c, .AtEnd false⟩, .EndMatch) chunk
            = ((⟨c, .AtEnd false⟩, .EndMatch), [], .Matched chunk) := by
          simp [buffered, BufferedParser.push]
        rw [e]
        exact Or.inr (Or.inr (Or.inr ⟨rfl, by simp⟩))
    | EndFail b =>
        have e : (buffered constantImpl).push
              (⟨c, .AtEnd false⟩, .EndFail b) chunk
            = ((⟨c, .AtEnd false⟩, .EndMatch), [], .Failed b) := by
          simp [buffered, BufferedParser.push]
        rw [e]
        exact Or.inr (Or.inr (Or.inr ⟨rfl, by simp⟩))

/-- A sequence of pushes preserves the run invariant of the buffering
adapter, accumulating emissions. -/
theorem bufRunInv_pushMany (c : Chunk) (chunks : List Chunk)
    (st : ConstantParser × BufferedParserState) (em : List Chunk)
    (h : BufRunInv c st em) :
    BufRunInv c (pushMany (buffered constantImpl) st chunks).1
      (em ++ (pushMany (buffered constantImpl) st chunks).2) := by
  induction chunks generalizing st em with
  | nil => simpa [pushMany] using h
  | cons chunk rest ih =>
      have hstep := bufRunInv_push c st em chunk h
      rcases hp : (buffered constantImpl).push st chunk with ⟨st', out, r⟩
      rw [hp] at hstep
      simp only at hstep
      have hrec := ih st' (em ++ out) hstep
      simp only [pushMany, hp]
      rcases hq : pushMany (buffered constantImpl) st' rest with ⟨st'', outs⟩
      rw [hq] at hrec
      simpa [List.append_assoc] using hrec

/-- C8: a run of the buffering adapter over the literal matcher for c in
which the inner matcher matches during a push emits exactly one value, the
target c itself (the consumed prefix of the first chunk when the match
completes there, otherwise the buffered consumed chunks plus the consumed
prefix of the final chunk); and its done calls the inner done (resetting
the inner matcher), emits the buffer exactly when the inner matcher reports
a match while the adapter is still in Middle, resets the adapter state to
Beginning unconditionally, and returns the inner matcher's result. -/
theorem buffered_constant_capture (c : Chunk) (chunks : List Chunk)
    (ps : ConstantParser) (bs : BufferedParserState)
    (h : (pushMany (buffered constantImpl) (constant c, .Beginning) chunks).1.1.state
        = .AtEnd true) :
    (pushMany (buffered constantImpl) (constant c, .Beginning) chunks).2 = [c] ∧
    BufferedParser.done constantImpl (ps, bs)
      = ((ConstantParser.mk ps.constant (.AtOffset 0), .Beginning),
          (if ps.state = .AtEnd true then
            match bs with
            | .Middle buffer => [buffer]
            | _ => []
          else []),
          decide (ps.state = .AtEnd true)) := by
  constructor
  · have hinv := bufRunInv_pushMany c chunks (constant c, .Beginning) []
      (Or.inl ⟨rfl, rfl⟩)
    rcases hinv with ⟨hst, _⟩ | ⟨i, _, hst, _⟩ | ⟨_, hem⟩ | ⟨hst, _⟩
    · rw [hst] at h
      simp [constant] at h
    · rw [hst] at h
      simp at h
    · simpa using hem
    · rw [hst] at h
      simp at h
  · rcases ps with ⟨pc, pst⟩
    cases pst with
    | AtOffset j =>
        cases bs <;>
          simp [BufferedParser.done, constantImpl, ConstantParser.done]
    | AtEnd b =>
        cases b <;> cases bs <;>
          simp [BufferedParser.done, constantImpl, ConstantParser.done]

/-- C8, witness: the buffering adapter over literal "ab" run on the chunks
"a" and "bc" (the match straddles the boundary and the buffered span "ab"
is emitted), and its done evaluated at a matched inner state while the
adapter is still in Middle("a"). -/
theorem buffered_constant_capture_witness :
    (pushMany (buffered constantImpl) (constant ['a', 'b'], .Beginning)
        [['a'], ['b', 'c']]).1.1.state = .AtEnd true ∧
    (pushMany (buffered constantImpl) (constant ['a', 'b'], .Beginning)
        [['a'], ['b', 'c']]).2 = [['a', 'b']] ∧
    BufferedParser.done constantImpl
        (ConstantParser.mk ['a', 'b'] (.AtEnd true), .Middle ['a'])
      = ((ConstantParser.mk ['a', 'b'] (.AtOffset 0), .Beginning),
          [['a']], true) :=
  ⟨by decide,
    (buffered_constant_capture ['a', 'b'] [['a'], ['b', 'c']]
        (ConstantParser.mk ['a', 'b'] (.AtEnd true)) (.Middle ['a'])
        (by decide)).1,
    (buffered_constant_capture ['a', 'b'] [['a'], ['b', 'c']]
        (ConstantParser.mk ['a', 'b'] (.AtEnd true)) (.Middle ['a'])
        (by decide)).2⟩

end Combinators
